import Mathlib

/-!
# ByteLog: a verification development of the relational evaluation engine

ByteLog is a small deductive database language: a program asserts ground
facts over binary relations, defines rules whose bodies are ordered
sequences of relational operations (scan, join, emit), computes the minimal
fixpoint of those rules over the facts (SOLVE), and answers pattern queries
(QUERY) against the resulting relation.

The repository ships the callers and the unit tests of the engine
(`demo.c`, `test_atoms.c`, `test_parser.c`, `test_lexer.c`, `test_ast.c`);
the engine itself (`engine.c`), the atom table (`atoms.c`) and the parser
(`parser.c`) are declared in headers and exercised by the tests but their
implementations are not part of the source tree here.  The definitions
below therefore model those components from the specification, at the
granularity the tests observe: the atom table as an insertion-ordered name
list, the parser as a line-oriented map from token lines to AST statements
(lexing — which is out of scope for the spec — is taken as given: a line
of source text is represented as its list of tokens), and the engine as an
executable fact store / rule VM / fixpoint driver / query evaluator.
-/

namespace ByteLog

/- ───────────────────────────── Atom table ───────────────────────────── -/

/-- Modelled from the spec: `atoms.c` is absent from the source tree.  Spec
§4.1: a mapping `name → id` where insertion order assigns ids `0, 1, 2, …`,
plus the inverse `id → name`.  The table is the dense id-ordered list of
names; `count` and `next_id` (observed by `test_atoms.c`) both equal its
length.  The hash map the spec suggests is a performance device only. -/
structure AtomTable where
  names : List String
deriving Repr, DecidableEq

def AtomTable.empty : AtomTable := ⟨[]⟩

def AtomTable.count (t : AtomTable) : Nat := t.names.length

def AtomTable.next_id (t : AtomTable) : Nat := t.names.length

/-- Index of the first occurrence of `s` in `ns` (the id an interned name
carries).  Defined locally so that all its properties are proved here. -/
def nameIdx : List String → String → Nat
  | [], _ => 0
  | n :: ns, s => if n = s then 0 else nameIdx ns s + 1

/-- Modelled from the spec: `intern(name) -> id` returns the existing id
for `name` if present, else appends a new id (spec §4.1). -/
def atom_table_intern (t : AtomTable) (s : String) : AtomTable × Nat :=
  if s ∈ t.names then (t, nameIdx t.names s)
  else (⟨t.names ++ [s]⟩, t.names.length)

/-- Modelled from the spec: `lookup(name) -> id | NONE`, a non-mutating
intern; `NONE` is `-1` in the source (`test_atoms.c` line 133). -/
def atom_table_lookup (t : AtomTable) (s : String) : Int :=
  if s ∈ t.names then (nameIdx t.names s : Int) else -1

/-- Modelled from the spec: `name(id) -> name | NONE` (spec §4.1);
`test_atoms.c` observes `NULL` for an id that was never assigned. -/
def atom_table_name (t : AtomTable) (id : Int) : Option String :=
  if id < 0 then none else t.names.get? id.toNat

/-- Interning a whole list of names into a fresh table, in order. -/
def internAll (L : List String) : AtomTable :=
  L.foldl (fun t s => (atom_table_intern t s).1) AtomTable.empty

/-- Append `s` to a name list unless already present. -/
def addName (ns : List String) (s : String) : List String :=
  if s ∈ ns then ns else ns ++ [s]

/-- The distinct names of `L` in order of first occurrence. -/
def firstOccs (L : List String) : List String := L.foldl addName []

/- ──────────────────────── Tokens and the AST ─────────────────────────── -/

/-- A source token (spec §6): keywords, identifier, signed integer,
`$`-variable, the wildcard `?`, and punctuation. -/
inductive Token
  | kwRel | kwFact | kwRule | kwScan | kwJoin | kwEmit | kwMatch | kwSolve | kwQuery
  | ident (s : String)
  | int (n : Int)
  | tvar (v : Nat)
  | wild
  | colon
  | comma
deriving Repr, DecidableEq

/-- A rule body operation, as stored in the AST (`test_parser.c`):
`SCAN rel [MATCH $v]` or `JOIN rel $v`. -/
inductive BodyOp
  | scan (rel : String) (matchVar : Option Nat)
  | join (rel : String) (v : Nat)
deriving Repr, DecidableEq

/-- A RULE statement: a target relation, the ordered body operations, and
the closing `EMIT rel $a $b` template. -/
structure RuleStmt where
  target : String
  body : List BodyOp
  emit_rel : String
  var_a : Nat
  var_b : Nat
deriving Repr, DecidableEq

/-- A top-level statement.  `fact` and `query` record, for each argument,
the integer value and — when the source token was a bareword atom — its
original spelling (`atom_a`/`atom_b`, `NULL` i.e. `none` otherwise), as
observed by `test_atoms.c` and `test_parser.c`.  The query wildcard is the
sentinel value `-1` with no spelling. -/
inductive Stmt
  | rel_decl (name : String)
  | fact (relation : String) (a b : Int) (atom_a atom_b : Option String)
  | rule (r : RuleStmt)
  | solve
  | query (relation : String) (arg_a arg_b : Int) (atom_a atom_b : Option String)
deriving Repr, DecidableEq

/-- The wildcard sentinel: `-1` in the source (`test_parser.c` line 636,
`demo.c` line 97). -/
def wildcard_sentinel : Int := -1

/- ──────────────────────────── The parser ─────────────────────────────── -/

/-- Modelled from the spec: `parser.c` is absent from the source tree.
A FACT argument is an integer literal (kept as its numeric value, no atom
spelling) or a bareword atom (interned at parse time; the id and the
spelling are both recorded).  Anything else is a parse error. -/
def parseFactArg (t : AtomTable) : Token → Option (AtomTable × Int × Option String)
  | Token.int n => some (t, n, none)
  | Token.ident s =>
      let r := atom_table_intern t s
      some (r.1, (r.2 : Int), some s)
  | _ => none

/-- Modelled from the spec: a QUERY argument additionally admits the
wildcard `?`, represented as the sentinel `-1` with no spelling. -/
def parseQueryArg (t : AtomTable) : Token → Option (AtomTable × Int × Option String)
  | Token.int n => some (t, n, none)
  | Token.ident s =>
      let r := atom_table_intern t s
      some (r.1, (r.2 : Int), some s)
  | Token.wild => some (t, wildcard_sentinel, none)
  | _ => none

/-- Split a rule body token list on the commas separating its clauses. -/
def splitClauses : List Token → List (List Token)
  | [] => [[]]
  | Token.comma :: rest => [] :: splitClauses rest
  | tok :: rest =>
      match splitClauses rest with
      | [] => [[tok]]
      | c :: cs => (tok :: c) :: cs

/-- Parse one non-final body clause: `SCAN rel`, `SCAN rel MATCH $v`, or
`JOIN rel $v`. -/
def parseOp : List Token → Option BodyOp
  | [Token.kwScan, Token.ident r] => some (BodyOp.scan r none)
  | [Token.kwScan, Token.ident r, Token.kwMatch, Token.tvar v] => some (BodyOp.scan r (some v))
  | [Token.kwJoin, Token.ident r, Token.tvar v] => some (BodyOp.join r v)
  | _ => none

/-- Parse the final clause of a rule body: `EMIT rel $i $j`. -/
def parseEmit : List Token → Option (String × Nat × Nat)
  | [Token.kwEmit, Token.ident r, Token.tvar i, Token.tvar j] => some (r, i, j)
  | _ => none

/-- Modelled from the spec: parse a rule body (the tokens after the `:`).
The clause list is split on commas; the final clause must be an EMIT
(spec §6: "EMIT must be the final element of the body clause";
`test_parser.c` `test_error_missing_emit`), every earlier clause must be a
SCAN or JOIN operation. -/
def parseRule (tgt : String) (rest : List Token) : Option RuleStmt :=
  let cs := splitClauses rest
  match cs.getLast? with
  | none => none
  | some lastC =>
    match parseEmit lastC with
    | none => none
    | some (er, i, j) =>
      match cs.dropLast.mapM parseOp with
      | none => none
      | some ops => some ⟨tgt, ops, er, i, j⟩

/-- Modelled from the spec: parse one logical line (given as its token
list; a comment-only or blank line is the empty token list and yields no
statement).  The atom table is threaded through: bareword FACT/QUERY
arguments are interned at parse time. -/
def parseLine (t : AtomTable) : List Token → Option (AtomTable × Option Stmt)
  | [] => some (t, none)
  | [Token.kwRel, Token.ident n] => some (t, some (Stmt.rel_decl n))
  | [Token.kwSolve] => some (t, some Stmt.solve)
  | [Token.kwFact, Token.ident r, a1, a2] =>
      match parseFactArg t a1 with
      | none => none
      | some (t1, v1, s1) =>
        match parseFactArg t1 a2 with
        | none => none
        | some (t2, v2, s2) => some (t2, some (Stmt.fact r v1 v2 s1 s2))
  | [Token.kwQuery, Token.ident r, a1, a2] =>
      match parseQueryArg t a1 with
      | none => none
      | some (t1, v1, s1) =>
        match parseQueryArg t1 a2 with
        | none => none
        | some (t2, v2, s2) => some (t2, some (Stmt.query r v1 v2 s1 s2))
  | Token.kwRule :: Token.ident tgt :: Token.colon :: rest =>
      match parseRule tgt rest with
      | none => none
      | some ru => some (t, some (Stmt.rule ru))
  | _ => none

/-- Parse a list of lines, threading the atom table, collecting the
statements in source order.  Any failing line aborts the whole parse. -/
def parseStmts (t : AtomTable) : List (List Token) → Option (AtomTable × List Stmt)
  | [] => some (t, [])
  | l :: ls =>
      match parseLine t l with
      | none => none
      | some (t1, os) =>
        match parseStmts t1 ls with
        | none => none
        | some (t2, ss) =>
          match os with
          | none => some (t2, ss)
          | some s => some (t2, s :: ss)

/-- Modelled from the spec: `parse_string` — parse a whole program (its
lines, as token lists) starting from a fresh atom table, returning the
statement list, or nothing on a parse error. -/
def parse_string (lines : List (List Token)) : Option (List Stmt) :=
  (parseStmts AtomTable.empty lines).map (fun p => p.2)

/- ─────────────────────────── The fact store ──────────────────────────── -/

/-- A fact is a triple `(rel, a, b)`.  Relations are identified here by
their names; the spec's relation-id indirection is a bijective renaming
(spec §3: "the same name always maps to the same id within a program"). -/
abbrev Fact : Type := String × Int × Int

/-- Modelled from the spec: the fact store, a duplicate-free set of
triples (spec §4.2).  The column indexes the spec prescribes are a
performance device; the store is its list of facts in insertion order
("unspecified but stable order"). -/
abbrev FactDB : Type := List Fact

/-- Modelled from the spec: `insert(rel, a, b)` — inserts the triple
unless already present (the `bool` result the spec mentions is recovered
as "did the store change"). -/
def factdb_insert (db : FactDB) (f : Fact) : FactDB :=
  if f ∈ db then db else db ++ [f]

/-- Modelled from the spec: `contains(rel, a, b)`. -/
def factdb_contains (db : FactDB) (f : Fact) : Bool := decide (f ∈ db)

/-- Modelled from the spec: `iter(rel)` — all `(a, b)` pairs of `rel`. -/
def iterRel (db : FactDB) (rel : String) : List (Int × Int) :=
  db.filterMap (fun g => if g.1 = rel then some g.2 else none)

/-- Modelled from the spec: `lookup_by_first(rel, a)` — all `b` with
`(rel, a, b)` stored; the hot path for JOIN. -/
def lookup_by_first (db : FactDB) (rel : String) (a : Int) : List Int :=
  db.filterMap (fun g => if g.1 = rel ∧ g.2.1 = a then some g.2.2 else none)

/-- Modelled from the spec: `lookup_by_second(rel, b)` — all `a` with
`(rel, a, b)` stored. -/
def lookup_by_second (db : FactDB) (rel : String) (b : Int) : List Int :=
  db.filterMap (fun g => if g.1 = rel ∧ g.2.2 = b then some g.2.1 else none)

/- ───────────────────────────── The rule VM ───────────────────────────── -/

/-- Modelled from the spec: rule registration validation (spec §4.3).
Walk the body tracking the length of the register vector: a plain `SCAN`
seeds registers `$0 $1` (vector length 2); `SCAN … MATCH $v` and
`JOIN … $v` require `$v` to be bound (`v <` current length — this also
forces the first op to be a SCAN, and rejects an empty body through the
EMIT check below) and extend the vector by one. -/
def checkOps : Nat → List BodyOp → Option Nat
  | k, [] => some k
  | _, BodyOp.scan _ none :: ops => checkOps 2 ops
  | k, BodyOp.scan _ (some v) :: ops => if v < k then checkOps (k + 1) ops else none
  | k, BodyOp.join _ v :: ops => if v < k then checkOps (k + 1) ops else none

/-- Modelled from the spec: the registration check for every rule, also
covering the emit template's register references and the empty body. -/
def compileRule (r : RuleStmt) : Option RuleStmt :=
  match checkOps 0 r.body with
  | none => none
  | some k => if r.var_a < k ∧ r.var_b < k then some r else none

/-- Modelled from the spec: one body operation applied to one live binding
(spec §4.3 execution semantics).  `SCAN r` produces one binding `[a, b]`
per fact of `r`; `SCAN r MATCH $v` and `JOIN r $v` extend the binding with
every second column `b` of a fact of `r` whose first column equals
register `$v` (a restricted join via `lookup_by_first`). -/
def joinStep (db : FactDB) (r : String) (v : Nat) (reg : List Int) : List (List Int) :=
  match reg.get? v with
  | some x => (lookup_by_first db r x).map (fun b => reg ++ [b])
  | none => []

/-- Modelled from the spec: one body operation applied to one live
binding; `SCAN … MATCH $v` behaves as the restricted join (spec §4.3). -/
def applyOp (db : FactDB) (op : BodyOp) (reg : List Int) : List (List Int) :=
  match op with
  | BodyOp.scan r none => (iterRel db r).map (fun p => [p.1, p.2])
  | BodyOp.scan r (some v) => joinStep db r v reg
  | BodyOp.join r v => joinStep db r v reg

/-- Modelled from the spec: evaluate a rule body into the list of bindings
it produces (staged materialization — the spec allows either this or
depth-first nesting; the resulting fact set is the same). -/
def evalBody (db : FactDB) (ops : List BodyOp) : List (List Int) :=
  ops.foldl (fun bs op => bs.flatMap (applyOp db op)) [[]]

/-- Modelled from the spec: the triples a rule emits against a store: for
each binding, `(target, reg[var_a], reg[var_b])` (spec §4.3 "Emit"). -/
def ruleEmits (db : FactDB) (r : RuleStmt) : List Fact :=
  (evalBody db r.body).filterMap (fun reg =>
    match reg.get? r.var_a, reg.get? r.var_b with
    | some a, some b => some (r.target, a, b)
    | _, _ => none)

/-- Insert every emitted triple, in order, deduplicating. -/
def insertAll (db : FactDB) (fs : List Fact) : FactDB := fs.foldl factdb_insert db

/- ──────────────────────── The fixpoint driver ────────────────────────── -/

/-- Modelled from the spec: one round of the fixpoint driver — run every
rule in registration order, inserting every emitted triple as it goes
(spec §4.4 "Round"). -/
def runRound (rules : List RuleStmt) (db : FactDB) : FactDB :=
  rules.foldl (fun d r => insertAll d (ruleEmits d r)) db

/-- Modelled from the spec: the fixpoint driver with its iteration cap —
repeat rounds until one changes nothing (the store is returned), aborting
with an error (`none`) if the cap runs out (spec §4.4 "Termination",
"Iteration cap"). -/
def solveFuel (rules : List RuleStmt) : Nat → FactDB → Option FactDB
  | 0, _ => none
  | n + 1, db =>
      if runRound rules db = db then some db
      else solveFuel rules n (runRound rules db)

/-- The spec's safety maximum for fixpoint rounds (spec §4.4: "e.g. 10,000
rounds"). -/
def SOLVE_CAP : Nat := 10000

/- ──────────────── Query evaluator and program driver ─────────────────── -/

/-- Modelled from the spec: `engine_query` (spec §4.5, and the wildcard
dispatch visible in `demo.c` lines 97–113): each argument is concrete or
the `-1` wildcard sentinel; both concrete is a membership test, one
wildcard streams the matching index, both wildcards streams the relation.
An unknown relation yields the empty result. -/
def engine_query (db : FactDB) (rel : String) (arg_a arg_b : Int) : List (Int × Int) :=
  if arg_a ≠ wildcard_sentinel ∧ arg_b ≠ wildcard_sentinel then
    if (rel, arg_a, arg_b) ∈ db then [(arg_a, arg_b)] else []
  else if arg_a ≠ wildcard_sentinel then
    (lookup_by_first db rel arg_a).map (fun b => (arg_a, b))
  else if arg_b ≠ wildcard_sentinel then
    (lookup_by_second db rel arg_b).map (fun a => (a, arg_b))
  else iterRel db rel

/-- The engine state: the fact store and the registered (compiled) rules.
The atom table was already consumed by the parser; relation names stand in
for relation ids (a bijection, spec §3). -/
structure Engine where
  facts : FactDB
  rules : List RuleStmt
deriving DecidableEq

/-- Modelled from the spec: one step of the program driver (spec §4.6).
`REL` is a no-op on the store, `FACT` inserts, `RULE` compiles and
registers (a compilation error aborts), `SOLVE` runs the fixpoint driver
under the iteration cap (hitting it aborts), `QUERY` is answered later by
the caller and does not change the engine. -/
def execStmt (e : Engine) : Stmt → Option Engine
  | Stmt.rel_decl _ => some e
  | Stmt.fact r a b _ _ => some ⟨factdb_insert e.facts (r, a, b), e.rules⟩
  | Stmt.rule r =>
      match compileRule r with
      | none => none
      | some cr => some ⟨e.facts, e.rules ++ [cr]⟩
  | Stmt.solve =>
      match solveFuel e.rules SOLVE_CAP e.facts with
      | none => none
      | some db => some ⟨db, e.rules⟩
  | Stmt.query .. => some e

/-- Fold the driver over a statement list from a given engine state. -/
def execStmts (e : Engine) : List Stmt → Option Engine
  | [] => some e
  | s :: ss =>
      match execStmt e s with
      | none => none
      | some e2 => execStmts e2 ss

/-- Modelled from the spec: `engine_execute_program` — walk the parsed
program once from the empty engine (spec §4.6, `demo.c` line 136). -/
def engine_execute_program (stmts : List Stmt) : Option Engine :=
  execStmts ⟨[], []⟩ stmts

/-- The whole pipeline of `demo.c`: parse, then execute; a parse failure
means execution never starts (`demo.c` returns before engine creation). -/
def run_program (lines : List (List Token)) : Option Engine :=
  (parse_string lines).bind engine_execute_program

/-- The `(relation, arg_a, arg_b)` triples of the QUERY statements of a
program, in source order (`demo.c` answers each after execution). -/
def programQueries (stmts : List Stmt) : List (String × Int × Int) :=
  stmts.filterMap (fun s =>
    match s with
    | Stmt.query r a b _ _ => some (r, a, b)
    | _ => none)

/- ─────────────── Syntactic observations used by the claims ───────────── -/

/-- The spelling of a bareword argument token, if it is one. -/
def argBareword : Token → List String
  | Token.ident s => [s]
  | _ => []

/-- The bareword FACT/QUERY arguments of one line, in source order — the
names the parser interns while processing the line. -/
def lineBarewords : List Token → List String
  | [Token.kwFact, Token.ident _, a1, a2] => argBareword a1 ++ argBareword a2
  | [Token.kwQuery, Token.ident _, a1, a2] => argBareword a1 ++ argBareword a2
  | _ => []

/-- All bareword FACT/QUERY arguments of a program, in source order. -/
def allBarewords (lines : List (List Token)) : List String :=
  lines.flatMap lineBarewords

/-- Whether a line is a RULE statement whose body lacks a final EMIT
clause: its last comma-separated clause does not parse as `EMIT r $i $j`. -/
def ruleMissingEmit (l : List Token) : Bool :=
  match l with
  | Token.kwRule :: Token.ident _ :: Token.colon :: rest =>
      match (splitClauses rest).getLast? with
      | none => true
      | some c => (parseEmit c).isNone
  | _ => false

/- ─────────────────────── Concrete scenario programs ──────────────────── -/

/-- The spec's S1 transitive-closure program (spec §8), as token lines. -/
def s1_lines : List (List Token) := [
  [Token.kwFact, Token.ident "parent", Token.int 0, Token.int 1],
  [Token.kwFact, Token.ident "parent", Token.int 1, Token.int 2],
  [Token.kwFact, Token.ident "parent", Token.int 2, Token.int 3],
  [Token.kwRule, Token.ident "ancestor", Token.colon,
    Token.kwScan, Token.ident "parent", Token.comma,
    Token.kwEmit, Token.ident "ancestor", Token.tvar 0, Token.tvar 1],
  [Token.kwRule, Token.ident "ancestor", Token.colon,
    Token.kwScan, Token.ident "parent", Token.comma,
    Token.kwJoin, Token.ident "ancestor", Token.tvar 1, Token.comma,
    Token.kwEmit, Token.ident "ancestor", Token.tvar 0, Token.tvar 2],
  [Token.kwSolve],
  [Token.kwQuery, Token.ident "ancestor", Token.int 0, Token.wild]]

/-- The spec's S6 termination-on-cycle program (spec §8): facts
`edge 0 1`, `edge 1 0`, the two reachability rules, SOLVE. -/
def s6_lines : List (List Token) := [
  [Token.kwFact, Token.ident "edge", Token.int 0, Token.int 1],
  [Token.kwFact, Token.ident "edge", Token.int 1, Token.int 0],
  [Token.kwRule, Token.ident "reachable", Token.colon,
    Token.kwScan, Token.ident "edge", Token.comma,
    Token.kwEmit, Token.ident "reachable", Token.tvar 0, Token.tvar 1],
  [Token.kwRule, Token.ident "reachable", Token.colon,
    Token.kwScan, Token.ident "edge", Token.comma,
    Token.kwJoin, Token.ident "reachable", Token.tvar 1, Token.comma,
    Token.kwEmit, Token.ident "reachable", Token.tvar 0, Token.tvar 2],
  [Token.kwSolve]]

/- ──────── Finite universe for the fixpoint termination argument ──────── -/

/-- All column values occurring in a store. -/
def cols (db : FactDB) : List Int := db.flatMap (fun f => [f.2.1, f.2.2])

/-- The target relations of a rule set. -/
def targets (rules : List RuleStmt) : List String := rules.map (fun r => r.target)

/-- The finite universe the fixpoint lives in: the initial facts plus all
triples over the rule targets and the initial column values (spec §4.4:
rules never manufacture new ids). -/
def factUniverse (db : FactDB) (rules : List RuleStmt) : List Fact :=
  db ++ (targets rules).flatMap (fun t =>
    (cols db).flatMap (fun a => (cols db).map (fun b => (t, a, b))))

/-- The store after `n` fixpoint rounds. -/
def roundIter (rules : List RuleStmt) (db : FactDB) : Nat → FactDB
  | 0 => db
  | n + 1 => runRound rules (roundIter rules db n)

/-- Membership in the finite universe, phrased fact-wise: an original
fact, or a triple whose relation is a rule target and whose columns are
column values of the original store. -/
def inUniverse (db0 : FactDB) (T : List String) (f : Fact) : Prop :=
  f ∈ db0 ∨ (f.1 ∈ T ∧ f.2.1 ∈ cols db0 ∧ f.2.2 ∈ cols db0)

/-- A parsed argument is consistent with an atom table: whenever a
spelling was recorded, the name is in the table and the recorded value is
exactly the id the table assigns it. -/
def atomOk (t : AtomTable) (v : Int) (sp : Option String) : Prop :=
  ∀ s, sp = some s → s ∈ t.names ∧ v = (nameIdx t.names s : Int)

/-- Every atom-spelled argument of a statement carries the id its table
assigns (trivial for statements without value arguments). -/
def atomArgsOk (t : AtomTable) : Stmt → Prop
  | Stmt.fact _ a b aa ab => atomOk t a aa ∧ atomOk t b ab
  | Stmt.query _ a b aa ab => atomOk t a aa ∧ atomOk t b ab
  | _ => True

/- ═══════════════════════════ Theorems ════════════════════════════════ -/

/- ───────────────────── Atom table: nameIdx lemmas ────────────────────── -/

theorem nameIdx_append_of_mem {ns : List String} {s : String} (h : s ∈ ns) (ext : List String) :
    nameIdx (ns ++ ext) s = nameIdx ns s := by
  induction ns with
  | nil => cases h
  | cons n ns ih =>
    by_cases hn : n = s
    · simp [nameIdx, hn]
    · have hs : s ∈ ns := by
        rcases List.mem_cons.mp h with h1 | h1
        · exact absurd h1.symm hn
        · exact h1
      simp [nameIdx, hn, ih hs]

theorem nameIdx_append_self {ns : List String} {s : String} (h : s ∉ ns) :
    nameIdx (ns ++ [s]) s = ns.length := by
  induction ns with
  | nil => simp [nameIdx]
  | cons n ns ih =>
    have hn : ¬ n = s := by
      intro he
      exact h (by simp [he])
    have hs : s ∉ ns := fun hm => h (List.mem_cons_of_mem _ hm)
    simp [nameIdx, hn, ih hs]

theorem getElem?_nameIdx {ns : List String} {s : String} (h : s ∈ ns) :
    ns[nameIdx ns s]? = some s := by
  induction ns with
  | nil => cases h
  | cons n ns ih =>
    by_cases hn : n = s
    · simp [nameIdx, hn]
    · have hs : s ∈ ns := by
        rcases List.mem_cons.mp h with h1 | h1
        · exact absurd h1.symm hn
        · exact h1
      simp [nameIdx, hn, ih hs]

theorem nameIdx_lt_length {ns : List String} {s : String} (h : s ∈ ns) :
    nameIdx ns s < ns.length := by
  have h1 := getElem?_nameIdx h
  rcases List.getElem?_eq_some.mp h1 with ⟨hlt, _⟩
  exact hlt

theorem nameIdx_inj {ns : List String} {s u : String} (hs : s ∈ ns) (hu : u ∈ ns)
    (he : nameIdx ns s = nameIdx ns u) : s = u := by
  have h1 := getElem?_nameIdx hs
  have h2 := getElem?_nameIdx hu
  rw [he, h2] at h1
  exact (Option.some.inj h1).symm

theorem nameIdx_getElem_of_nodup {ns : List String} (hnd : ns.Nodup) (i : Nat)
    (h : i < ns.length) : nameIdx ns ns[i] = i := by
  induction ns generalizing i with
  | nil => cases h
  | cons n ns ih =>
    cases i with
    | zero => simp [nameIdx]
    | succ j =>
      have hj : j < ns.length := Nat.lt_of_succ_lt_succ h
      have hmem : ns[j] ∈ ns := List.getElem_mem hj
      have hn : ¬ n = ns[j] := by
        intro he
        exact (List.nodup_cons.mp hnd).1 (he ▸ hmem)
      have hg : (n :: ns)[j + 1] = ns[j] := List.getElem_cons_succ ..
      rw [hg]
      show (if n = ns[j] then 0 else nameIdx ns ns[j] + 1) = j + 1
      rw [if_neg hn, ih (List.nodup_cons.mp hnd).2 j hj]

/- ───────────────────── Atom table: intern lemmas ─────────────────────── -/

theorem intern_names (t : AtomTable) (s : String) :
    (atom_table_intern t s).1.names = addName t.names s := by
  by_cases h : s ∈ t.names <;> simp [atom_table_intern, addName, h]

theorem intern_mem (t : AtomTable) (s : String) : s ∈ (atom_table_intern t s).1.names := by
  by_cases h : s ∈ t.names <;> simp [atom_table_intern, h]

theorem intern_ext (t : AtomTable) (s : String) :
    ∃ ext, (atom_table_intern t s).1.names = t.names ++ ext := by
  by_cases h : s ∈ t.names
  · exact ⟨[], by simp [atom_table_intern, h]⟩
  · exact ⟨[s], by simp [atom_table_intern, h]⟩

theorem intern_id_eq (t : AtomTable) (s : String) :
    (atom_table_intern t s).2 = nameIdx (atom_table_intern t s).1.names s := by
  by_cases h : s ∈ t.names
  · simp [atom_table_intern, h]
  · simp [atom_table_intern, h, nameIdx_append_self h]

theorem intern_id_stable (t : AtomTable) (s : String) (ext : List String) :
    nameIdx ((atom_table_intern t s).1.names ++ ext) s = (atom_table_intern t s).2 := by
  rw [nameIdx_append_of_mem (intern_mem t s) ext, intern_id_eq]

theorem intern_of_mem (t : AtomTable) {s : String} (h : s ∈ t.names) :
    atom_table_intern t s = (t, nameIdx t.names s) := by
  simp [atom_table_intern, h]

/-- C5 (spec-modelled).  Intern is injective on byte-equal names: from any
table state, the id of `s` and the id of a subsequently interned `u`
coincide iff `s` and `u` are equal strings.  Concretely (mirroring
`test_parse_multiple_facts_same_atom` and `test_atom_case_sensitivity`):
`pizza` interned from two different facts receives one id (`1`) while
`alice`/`bob` receive distinct ids (`0`/`2`), and `Alice`/`alice`/`ALICE`
receive the pairwise distinct ids `0`/`1`/`2`. -/
theorem claim_c5 :
    (∀ (t : AtomTable) (s u : String),
      (atom_table_intern (atom_table_intern t s).1 u).2 = (atom_table_intern t s).2 ↔ s = u)
    ∧ parse_string [[Token.kwFact, Token.ident "likes", Token.ident "alice", Token.ident "pizza"],
        [Token.kwFact, Token.ident "likes", Token.ident "bob", Token.ident "pizza"]]
      = some [Stmt.fact "likes" 0 1 (some "alice") (some "pizza"),
              Stmt.fact "likes" 2 1 (some "bob") (some "pizza")]
    ∧ parse_string [[Token.kwFact, Token.ident "test", Token.ident "Alice", Token.ident "alice"],
        [Token.kwFact, Token.ident "test", Token.ident "alice", Token.ident "ALICE"]]
      = some [Stmt.fact "test" 0 1 (some "Alice") (some "alice"),
              Stmt.fact "test" 1 2 (some "alice") (some "ALICE")] := by
  refine ⟨fun t s u => ?_, by decide, by decide⟩
  constructor
  · intro he
    rcases intern_ext (atom_table_intern t s).1 u with ⟨ext, hext⟩
    have hs : s ∈ (atom_table_intern (atom_table_intern t s).1 u).1.names := by
      rw [hext]
      exact List.mem_append_left _ (intern_mem t s)
    have hu : u ∈ (atom_table_intern (atom_table_intern t s).1 u).1.names :=
      intern_mem _ u
    apply nameIdx_inj hs hu
    rw [hext, intern_id_stable t s ext, ← hext, ← intern_id_eq]
    exact he.symm
  · intro he
    subst he
    rw [intern_of_mem _ (intern_mem t s), ← intern_id_eq]

/-- C6 (spec-modelled).  Intern is idempotent: a second intern of `s` from
any table state (hence after any sequence of other interns) returns the
same id and leaves the table — in particular its count — unchanged. -/
theorem claim_c6 :
    ∀ (t : AtomTable) (s : String),
      atom_table_intern (atom_table_intern t s).1 s
        = ((atom_table_intern t s).1, (atom_table_intern t s).2)
      ∧ (atom_table_intern (atom_table_intern t s).1 s).1.count
        = (atom_table_intern t s).1.count := by
  intro t s
  rw [intern_of_mem _ (intern_mem t s), ← intern_id_eq]
  exact ⟨rfl, rfl⟩

/- ─────────────── Atom table: insertion order and density ─────────────── -/

theorem foldl_intern_names (L : List String) : ∀ t : AtomTable,
    (L.foldl (fun t s => (atom_table_intern t s).1) t).names = L.foldl addName t.names := by
  induction L with
  | nil => intro t; rfl
  | cons a L ih => intro t; rw [List.foldl_cons, List.foldl_cons, ih, intern_names]

theorem internAll_names (L : List String) : (internAll L).names = firstOccs L :=
  foldl_intern_names L AtomTable.empty

theorem mem_addName {ns : List String} {a x : String} : x ∈ addName ns a ↔ x ∈ ns ∨ x = a := by
  by_cases h : a ∈ ns
  · rw [addName, if_pos h]
    constructor
    · exact Or.inl
    · rintro (h1 | rfl)
      · exact h1
      · exact h
  · rw [addName, if_neg h]
    simp [List.mem_append]

theorem nodup_addName {ns : List String} {a : String} (h : ns.Nodup) : (addName ns a).Nodup := by
  by_cases hm : a ∈ ns
  · simpa [addName, hm] using h
  · rw [addName, if_neg hm, List.nodup_append]
    refine ⟨h, List.nodup_singleton a, ?_⟩
    intro x hx hx2
    rw [List.mem_singleton] at hx2
    exact hm (hx2 ▸ hx)

theorem nodup_foldl_addName (L : List String) :
    ∀ ns : List String, ns.Nodup → (L.foldl addName ns).Nodup := by
  induction L with
  | nil => intro ns h; exact h
  | cons a L ih => intro ns h; exact ih _ (nodup_addName h)

theorem firstOccs_nodup (L : List String) : (firstOccs L).Nodup :=
  nodup_foldl_addName L [] List.nodup_nil

theorem mem_foldl_addName (L : List String) :
    ∀ (ns : List String) (x : String), x ∈ L.foldl addName ns ↔ x ∈ ns ∨ x ∈ L := by
  induction L with
  | nil => simp
  | cons a L ih =>
    intro ns x
    rw [List.foldl_cons, ih, mem_addName, List.mem_cons]
    tauto

theorem mem_firstOccs {L : List String} {x : String} : x ∈ firstOccs L ↔ x ∈ L := by
  rw [firstOccs, mem_foldl_addName]
  simp

/-- C7 (spec-modelled).  Atom ids are dense and assigned in insertion
order: interning a list of names into a fresh table yields exactly the
distinct names in order of first occurrence, so the i-th distinct name
receives id `i` (interning it again returns `i`), the count equals the
number of distinct names, `name(id)` returns the name assigned id `id`,
and `NONE` for every id never assigned (negative or at least the count). -/
theorem claim_c7 :
    ∀ L : List String,
      (internAll L).names = firstOccs L
      ∧ (internAll L).count = (firstOccs L).length
      ∧ (firstOccs L).Nodup
      ∧ (∀ s, s ∈ firstOccs L ↔ s ∈ L)
      ∧ (∀ (i : Nat) (h : i < (internAll L).names.length),
          (atom_table_intern (internAll L) ((internAll L).names.get ⟨i, h⟩)).2 = i)
      ∧ (∀ (i : Nat) (h : i < (internAll L).names.length),
          atom_table_name (internAll L) (i : Int) = some ((internAll L).names.get ⟨i, h⟩))
      ∧ (∀ id : Int, atom_table_name (internAll L) id = none ↔
          id < 0 ∨ ((internAll L).count : Int) ≤ id) := by
  intro L
  have hnames := internAll_names L
  have hnd : (internAll L).names.Nodup := by rw [hnames]; exact firstOccs_nodup L
  refine ⟨hnames, by rw [AtomTable.count, hnames], firstOccs_nodup L,
    fun s => mem_firstOccs, ?_, ?_, ?_⟩
  · intro i h
    have hmem : (internAll L).names.get ⟨i, h⟩ ∈ (internAll L).names := List.get_mem _ _ h
    rw [intern_of_mem _ hmem]
    show nameIdx (internAll L).names ((internAll L).names.get ⟨i, h⟩) = i
    have hg : (internAll L).names.get ⟨i, h⟩ = (internAll L).names[i] := rfl
    rw [hg]
    exact nameIdx_getElem_of_nodup hnd i h
  · intro i h
    have h0 : ¬ ((i : Int) < 0) := by omega
    simp [atom_table_name, h0, List.get?_eq_getElem?, List.getElem?_eq_getElem h,
      List.get_eq_getElem]
  · intro id
    by_cases h : id < 0
    · simp [atom_table_name, h]
    · simp only [atom_table_name, if_neg h, List.get?_eq_none, AtomTable.count]
      omega

/-- C7 witness: for the intern sequence `hello, world, hello` the name at
id 1 is re-interned to id 1, and id 5 was never assigned. -/
theorem claim_c7_witness :
    (atom_table_intern (internAll ["hello", "world", "hello"])
      ((internAll ["hello", "world", "hello"]).names.get ⟨1, by decide⟩)).2 = 1
    ∧ atom_table_name (internAll ["hello", "world", "hello"]) 5 = none := by
  constructor
  · exact (claim_c7 ["hello", "world", "hello"]).2.2.2.2.1 1 (by decide)
  · exact ((claim_c7 ["hello", "world", "hello"]).2.2.2.2.2.2 5).mpr (by decide)

/-- C8 (spec-modelled).  Lookup is a non-mutating intern: when `s` has
been interned, `lookup` returns exactly the id `intern` assigns (and that
intern leaves the table unchanged); when it has not, `lookup` returns the
`NONE` sentinel `-1`.  The model's `atom_table_lookup` is a pure function
of the table, so it cannot change the count or any assignment. -/
theorem claim_c8 :
    ∀ (t : AtomTable) (s : String),
      (s ∈ t.names →
        atom_table_lookup t s = ((atom_table_intern t s).2 : Int)
        ∧ (atom_table_intern t s).1 = t)
      ∧ (s ∉ t.names → atom_table_lookup t s = -1) := by
  intro t s
  constructor
  · intro h
    rw [intern_of_mem t h]
    exact ⟨by simp [atom_table_lookup, h], rfl⟩
  · intro h
    simp [atom_table_lookup, h]

/-- C8 witness: in the table of `hello, world`, looking up `hello` agrees
with intern and mutates nothing, and looking up `notfound` returns -1. -/
theorem claim_c8_witness :
    (atom_table_lookup (internAll ["hello", "world"]) "hello"
        = ((atom_table_intern (internAll ["hello", "world"]) "hello").2 : Int)
      ∧ (atom_table_intern (internAll ["hello", "world"]) "hello").1
        = internAll ["hello", "world"])
    ∧ atom_table_lookup (internAll ["hello", "world"]) "notfound" = -1 :=
  ⟨(claim_c8 (internAll ["hello", "world"]) "hello").1 (by decide),
   (claim_c8 (internAll ["hello", "world"]) "notfound").2 (by decide)⟩

/- ─────────────── Fact store and rule VM: basic lemmas ────────────────── -/

theorem insertAll_cons (db : FactDB) (f : Fact) (fs : List Fact) :
    insertAll db (f :: fs) = insertAll (factdb_insert db f) fs := rfl

theorem factdb_insert_append (db : FactDB) (f : Fact) :
    ∃ ext, factdb_insert db f = db ++ ext ∧ ∀ g ∈ ext, g = f := by
  by_cases h : f ∈ db
  · exact ⟨[], by simp [factdb_insert, h], by simp⟩
  · exact ⟨[f], by simp [factdb_insert, h], by simp⟩

theorem insertAll_append (fs : List Fact) : ∀ db : FactDB,
    ∃ ext, insertAll db fs = db ++ ext ∧ ∀ g ∈ ext, g ∈ fs := by
  induction fs with
  | nil => intro db; exact ⟨[], by simp [insertAll], by simp⟩
  | cons f fs ih =>
    intro db
    rcases factdb_insert_append db f with ⟨e1, he1, hm1⟩
    rcases ih (factdb_insert db f) with ⟨e2, he2, hm2⟩
    refine ⟨e1 ++ e2, ?_, ?_⟩
    · rw [insertAll_cons, he2, he1, List.append_assoc]
    · intro g hg
      rcases List.mem_append.mp hg with h | h
      · exact List.mem_cons.mpr (Or.inl (hm1 g h))
      · exact List.mem_cons_of_mem _ (hm2 g h)

theorem mem_insertAll {db : FactDB} {fs : List Fact} {x : Fact}
    (h : x ∈ insertAll db fs) : x ∈ db ∨ x ∈ fs := by
  rcases insertAll_append fs db with ⟨ext, he, hm⟩
  rw [he] at h
  rcases List.mem_append.mp h with h | h
  · exact Or.inl h
  · exact Or.inr (hm x h)

theorem insertAll_nodup (fs : List Fact) : ∀ db : FactDB,
    db.Nodup → (insertAll db fs).Nodup := by
  induction fs with
  | nil => intro db h; exact h
  | cons f fs ih =>
    intro db h
    rw [insertAll_cons]
    apply ih
    by_cases hm : f ∈ db
    · simpa [factdb_insert, hm] using h
    · rw [factdb_insert, if_neg hm, List.nodup_append]
      exact ⟨h, List.nodup_singleton f,
        fun x hx hx2 => hm ((List.mem_singleton.mp hx2) ▸ hx)⟩

theorem mem_iterRel {db : FactDB} {rel : String} {p : Int × Int}
    (h : p ∈ iterRel db rel) : (rel, p.1, p.2) ∈ db := by
  rcases List.mem_filterMap.mp h with ⟨g, hg, he⟩
  by_cases hc : g.1 = rel
  · rw [if_pos hc] at he
    have h2 : g.2 = p := Option.some.inj he
    rcases g with ⟨g1, g2⟩
    subst hc
    subst h2
    exact hg
  · rw [if_neg hc] at he
    cases he

theorem mem_lookup_by_first {db : FactDB} {rel : String} {a b : Int}
    (h : b ∈ lookup_by_first db rel a) : (rel, a, b) ∈ db := by
  rcases List.mem_filterMap.mp h with ⟨g, hg, he⟩
  by_cases hc : g.1 = rel ∧ g.2.1 = a
  · rw [if_pos hc] at he
    have hb : g.2.2 = b := Option.some.inj he
    rcases g with ⟨g1, g2, g3⟩
    obtain ⟨h1, h2⟩ := hc
    subst h1
    subst h2
    subst hb
    exact hg
  · rw [if_neg hc] at he
    cases he

theorem mem_cols {db : FactDB} {f : Fact} (h : f ∈ db) :
    f.2.1 ∈ cols db ∧ f.2.2 ∈ cols db := by
  constructor <;> (rw [cols]; exact List.mem_flatMap.mpr ⟨f, h, by simp⟩)

theorem joinStep_vals {db : FactDB} {r : String} {v : Nat} {reg reg' : List Int}
    (h : reg' ∈ joinStep db r v reg) (hr : ∀ x ∈ reg, x ∈ cols db) :
    ∀ x ∈ reg', x ∈ cols db := by
  rw [joinStep] at h
  cases hv : reg.get? v with
  | none => rw [hv] at h; cases h
  | some a =>
    rw [hv] at h
    rcases List.mem_map.mp h with ⟨b, hb, he⟩
    have hdb := mem_lookup_by_first hb
    intro x hx
    rw [← he] at hx
    rcases List.mem_append.mp hx with h1 | h1
    · exact hr x h1
    · rw [List.mem_singleton] at h1
      subst h1
      exact (mem_cols hdb).2

theorem applyOp_vals {db : FactDB} {op : BodyOp} {reg reg' : List Int}
    (h : reg' ∈ applyOp db op reg) (hr : ∀ x ∈ reg, x ∈ cols db) :
    ∀ x ∈ reg', x ∈ cols db := by
  cases op with
  | scan r mv =>
    cases mv with
    | none =>
      simp only [applyOp] at h
      rcases List.mem_map.mp h with ⟨p, hp, he⟩
      have hdb := mem_iterRel hp
      intro x hx
      rw [← he] at hx
      rcases List.mem_cons.mp hx with h1 | h1
      · exact h1 ▸ (mem_cols hdb).1
      · rw [List.mem_singleton] at h1
        exact h1 ▸ (mem_cols hdb).2
    | some v =>
      exact joinStep_vals h hr
  | join r v =>
    exact joinStep_vals h hr

theorem evalBody_vals {db : FactDB} (ops : List BodyOp) :
    ∀ bs : List (List Int), (∀ reg ∈ bs, ∀ x ∈ reg, x ∈ cols db) →
    ∀ reg ∈ ops.foldl (fun bs op => bs.flatMap (applyOp db op)) bs,
    ∀ x ∈ reg, x ∈ cols db := by
  induction ops with
  | nil => intro bs h; exact h
  | cons op ops ih =>
    intro bs h
    rw [List.foldl_cons]
    apply ih
    intro reg hreg
    rcases List.mem_flatMap.mp hreg with ⟨reg0, hreg0, hmem⟩
    exact applyOp_vals hmem (h reg0 hreg0)

theorem ruleEmits_spec {db : FactDB} {r : RuleStmt} {f : Fact}
    (h : f ∈ ruleEmits db r) :
    f.1 = r.target ∧ f.2.1 ∈ cols db ∧ f.2.2 ∈ cols db := by
  rcases List.mem_filterMap.mp h with ⟨reg, hreg, he⟩
  have hvals : ∀ x ∈ reg, x ∈ cols db :=
    evalBody_vals r.body [[]] (by simp) reg hreg
  cases ha : reg[r.var_a]? with
  | none => simp [ha] at he
  | some a =>
    cases hb : reg[r.var_b]? with
    | none => simp [ha, hb] at he
    | some b =>
      have ha2 : reg.get? r.var_a = some a := by rw [List.get?_eq_getElem?]; exact ha
      have hb2 : reg.get? r.var_b = some b := by rw [List.get?_eq_getElem?]; exact hb
      rw [ha2, hb2] at he
      obtain rfl : (r.target, a, b) = f := Option.some.inj he
      exact ⟨rfl, hvals a (List.get?_mem ha2), hvals b (List.get?_mem hb2)⟩

/- ─────────────── Fixpoint rounds: growth and invariants ──────────────── -/

theorem runRound_append (rules : List RuleStmt) (db : FactDB) :
    ∃ ext, runRound rules db = db ++ ext := by
  suffices aux : ∀ (rs : List RuleStmt) (d : FactDB),
      ∃ ext, rs.foldl (fun d r => insertAll d (ruleEmits d r)) d = d ++ ext by
    exact aux rules db
  intro rs
  induction rs with
  | nil => intro d; exact ⟨[], by simp⟩
  | cons r rs ih =>
    intro d
    rcases insertAll_append (ruleEmits d r) d with ⟨e1, he1, _⟩
    rcases ih (insertAll d (ruleEmits d r)) with ⟨e2, he2⟩
    exact ⟨e1 ++ e2, by rw [List.foldl_cons, he2, he1, List.append_assoc]⟩

theorem runRound_nodup {rules : List RuleStmt} {db : FactDB} (h : db.Nodup) :
    (runRound rules db).Nodup := by
  suffices aux : ∀ (rs : List RuleStmt) (d : FactDB), d.Nodup →
      (rs.foldl (fun d r => insertAll d (ruleEmits d r)) d).Nodup by
    exact aux rules db h
  intro rs
  induction rs with
  | nil => intro d hd; exact hd
  | cons r rs ih =>
    intro d hd
    rw [List.foldl_cons]
    exact ih _ (insertAll_nodup _ _ hd)

theorem cols_sub {db0 : FactDB} {T : List String} {d : FactDB}
    (h : ∀ f ∈ d, inUniverse db0 T f) : ∀ x ∈ cols d, x ∈ cols db0 := by
  intro x hx
  rw [cols] at hx
  rcases List.mem_flatMap.mp hx with ⟨f, hf, hxf⟩
  rcases List.mem_cons.mp hxf with h1 | h1
  · rcases h f hf with hf0 | ⟨_, hc1, _⟩
    · exact h1 ▸ (mem_cols hf0).1
    · exact h1 ▸ hc1
  · rw [List.mem_singleton] at h1
    rcases h f hf with hf0 | ⟨_, _, hc2⟩
    · exact h1 ▸ (mem_cols hf0).2
    · exact h1 ▸ hc2

theorem runRound_inv {rules : List RuleStmt} {db0 d : FactDB}
    (hI : ∀ f ∈ d, inUniverse db0 (targets rules) f) :
    ∀ f ∈ runRound rules d, inUniverse db0 (targets rules) f := by
  suffices aux : ∀ (rs : List RuleStmt) (T : List String), (∀ r ∈ rs, r.target ∈ T) →
      ∀ d : FactDB, (∀ f ∈ d, inUniverse db0 T f) →
      ∀ f ∈ rs.foldl (fun d r => insertAll d (ruleEmits d r)) d, inUniverse db0 T f by
    exact aux rules (targets rules)
      (fun r hr => List.mem_map.mpr ⟨r, hr, rfl⟩) d hI
  intro rs
  induction rs with
  | nil => intro T _ d hd f hf; exact hd f hf
  | cons r rs ih =>
    intro T hT d hd
    rw [List.foldl_cons]
    apply ih T (fun r2 h2 => hT r2 (List.mem_cons_of_mem _ h2))
    intro f hf
    rcases mem_insertAll hf with h | h
    · exact hd f h
    · rcases ruleEmits_spec h with ⟨ht, h1, h2⟩
      exact Or.inr ⟨by rw [ht]; exact hT r (List.mem_cons_self r rs),
        cols_sub hd _ h1, cols_sub hd _ h2⟩

theorem roundIter_inv (rules : List RuleStmt) (db : FactDB) :
    ∀ n, ∀ f ∈ roundIter rules db n, inUniverse db (targets rules) f := by
  intro n
  induction n with
  | zero => intro f hf; exact Or.inl hf
  | succ n ih => intro f hf; exact runRound_inv ih f hf

theorem roundIter_nodup {rules : List RuleStmt} {db : FactDB} (h : db.Nodup) :
    ∀ n, (roundIter rules db n).Nodup := by
  intro n
  induction n with
  | zero => exact h
  | succ n ih => exact runRound_nodup ih

theorem inUniverse_mem {db0 : FactDB} {rules : List RuleStmt} {f : Fact}
    (h : inUniverse db0 (targets rules) f) : f ∈ factUniverse db0 rules := by
  rcases h with h | ⟨h1, h2, h3⟩
  · exact List.mem_append_left _ h
  · apply List.mem_append_right
    apply List.mem_flatMap.mpr
    refine ⟨f.1, h1, ?_⟩
    apply List.mem_flatMap.mpr
    refine ⟨f.2.1, h2, ?_⟩
    apply List.mem_map.mpr
    exact ⟨f.2.2, h3, rfl⟩

theorem roundIter_length_le (rules : List RuleStmt) (db : FactDB) (hnd : db.Nodup)
    (n : Nat) : (roundIter rules db n).length ≤ (factUniverse db rules).length := by
  have h1 : (roundIter rules db n).Nodup := roundIter_nodup hnd n
  have h2 : roundIter rules db n ⊆ factUniverse db rules :=
    fun f hf => inUniverse_mem (roundIter_inv rules db n f hf)
  exact (h1.subperm h2).length_le

theorem roundIter_succ_length {rules : List RuleStmt} {db : FactDB} {n : Nat}
    (h : roundIter rules db (n + 1) ≠ roundIter rules db n) :
    (roundIter rules db n).length < (roundIter rules db (n + 1)).length := by
  rcases runRound_append rules (roundIter rules db n) with ⟨ext, he⟩
  have he2 : roundIter rules db (n + 1) = roundIter rules db n ++ ext := he
  cases ext with
  | nil => exact absurd (by rw [he2, List.append_nil]) h
  | cons x xs =>
    rw [he2, List.length_append, List.length_cons]
    omega

theorem roundIter_growth {rules : List RuleStmt} {db : FactDB} :
    ∀ k, (∀ i, i < k → roundIter rules db (i + 1) ≠ roundIter rules db i) →
    db.length + k ≤ (roundIter rules db k).length := by
  intro k
  induction k with
  | zero => intro _; simp [roundIter]
  | succ k ih =>
    intro h
    have h1 := ih (fun i hi => h i (Nat.lt_succ_of_lt hi))
    have h2 := roundIter_succ_length (h k (Nat.lt_succ_self k))
    omega

theorem exists_stable_round (rules : List RuleStmt) (db : FactDB) (hnd : db.Nodup) :
    ∃ n, n < (factUniverse db rules).length + 1
      ∧ runRound rules (roundIter rules db n) = roundIter rules db n := by
  by_contra hc
  push_neg at hc
  have hg := roundIter_growth ((factUniverse db rules).length + 1) (fun i hi => hc i hi)
  have hb := roundIter_length_le rules db hnd ((factUniverse db rules).length + 1)
  omega

theorem roundIter_shift (rules : List RuleStmt) (db : FactDB) :
    ∀ n, roundIter rules db (n + 1) = roundIter rules (runRound rules db) n := by
  intro n
  induction n with
  | zero => rfl
  | succ n ih =>
    show runRound rules (roundIter rules db (n + 1))
      = runRound rules (roundIter rules (runRound rules db) n)
    rw [ih]

theorem solveFuel_of_stable {rules : List RuleStmt} :
    ∀ (fuel : Nat) (db : FactDB),
      (∃ n, n < fuel ∧ runRound rules (roundIter rules db n) = roundIter rules db n) →
      ∃ db2, solveFuel rules fuel db = some db2 := by
  intro fuel
  induction fuel with
  | zero =>
    intro db h
    rcases h with ⟨n, hn, _⟩
    omega
  | succ m ih =>
    intro db h
    rcases h with ⟨n, hn, hs⟩
    by_cases hc : runRound rules db = db
    · exact ⟨db, by rw [solveFuel, if_pos hc]⟩
    · cases n with
      | zero => exact absurd hs hc
      | succ k =>
        rw [roundIter_shift, ← roundIter_shift rules db k] at hs
        rw [roundIter_shift] at hs
        rcases ih (runRound rules db) ⟨k, Nat.lt_of_succ_lt_succ hn, hs⟩ with ⟨db2, h2⟩
        exact ⟨db2, by rw [solveFuel, if_neg hc]; exact h2⟩

theorem solveFuel_fixed {rules : List RuleStmt} :
    ∀ {fuel : Nat} {db db2 : FactDB}, solveFuel rules fuel db = some db2 →
      runRound rules db2 = db2 := by
  intro fuel
  induction fuel with
  | zero => intro db db2 h; cases h
  | succ n ih =>
    intro db db2 h
    rw [solveFuel] at h
    by_cases hc : runRound rules db = db
    · rw [if_pos hc] at h
      cases h
      exact hc
    · rw [if_neg hc] at h
      exact ih h

/- ─────────────────────── Claims C1, C2, C3 ───────────────────────────── -/

/-- C1 (spec-modelled).  For the S1 program — facts `parent(0,1)`,
`parent(1,2)`, `parent(2,3)`, the base and transitive `ancestor` rules,
SOLVE — the query `QUERY ancestor 0 ?` (whose parsed arguments are `0` and
the wildcard) returns exactly the pairs `{(0,1),(0,2),(0,3)}`: the result
list is a permutation of that three-element duplicate-free enumeration,
so no more, no fewer, order irrelevant. -/
theorem claim_c1 :
    ∃ (stmts : List Stmt) (e : Engine),
      parse_string s1_lines = some stmts
      ∧ programQueries stmts = [("ancestor", 0, wildcard_sentinel)]
      ∧ engine_execute_program stmts = some e
      ∧ (engine_query e.facts "ancestor" 0 wildcard_sentinel).Perm
          [(0, 1), (0, 2), (0, 3)] := by
  refine ⟨_, _, rfl, by decide, rfl, by decide⟩

/-- C2 (spec-modelled).  The SOLVE fixpoint driver terminates on every
rule set and every (duplicate-free) initial store: the fuel
`|factUniverse| + 2` always suffices for a round to complete with no new
fact, so the driver returns instead of hitting its cap.  In particular on
the cyclic S6 data — `edge(0,1)`, `edge(1,0)` with the two reachability
rules — the whole pipeline terminates with the `reachable` relation equal
to `{(0,0),(0,1),(1,0),(1,1)}`. -/
theorem claim_c2 :
    (∀ (rules : List RuleStmt) (db : FactDB), db.Nodup →
      (solveFuel rules ((factUniverse db rules).length + 2) db).isSome = true)
    ∧ ∃ e : Engine,
        run_program s6_lines = some e
        ∧ (iterRel e.facts "reachable").Perm [(0, 0), (0, 1), (1, 0), (1, 1)] := by
  constructor
  · intro rules db hnd
    rcases exists_stable_round rules db hnd with ⟨n, hn, hs⟩
    rcases solveFuel_of_stable ((factUniverse db rules).length + 2) db
      ⟨n, by omega, hs⟩ with ⟨db2, h2⟩
    rw [h2]
    rfl
  · exact ⟨_, rfl, by decide⟩

/-- C2 witness: the driver terminates on a concrete cyclic store (the S6
edge facts with no rules). -/
theorem claim_c2_witness :
    (solveFuel []
      ((factUniverse [("edge", 0, 1), ("edge", 1, 0)] []).length + 2)
      [("edge", 0, 1), ("edge", 1, 0)]).isSome = true :=
  claim_c2.1 [] [("edge", 0, 1), ("edge", 1, 0)] (by decide)

/-- C3 (spec-modelled).  SOLVE is idempotent after the first run: any
store a successful SOLVE returns is a fixed point of a round (running the
rules once more inserts nothing), and a second SOLVE with any positive
fuel immediately returns the very same store. -/
theorem claim_c3 :
    ∀ (rules : List RuleStmt) (fuel : Nat) (db db2 : FactDB),
      solveFuel rules fuel db = some db2 →
      runRound rules db2 = db2
      ∧ ∀ fuel2 : Nat, 1 ≤ fuel2 → solveFuel rules fuel2 db2 = some db2 := by
  intro rules fuel db db2 h
  have hfix := solveFuel_fixed h
  refine ⟨hfix, ?_⟩
  intro fuel2 h2
  cases fuel2 with
  | zero => omega
  | succ m => rw [solveFuel, if_pos hfix]

/-- C3 witness: solving `parent(0,1)` under the base `ancestor` rule
yields a store that one more round, and a second SOLVE, leave unchanged. -/
theorem claim_c3_witness :
    runRound [⟨"ancestor", [BodyOp.scan "parent" none], "ancestor", 0, 1⟩]
        [("parent", 0, 1), ("ancestor", 0, 1)]
      = [("parent", 0, 1), ("ancestor", 0, 1)]
    ∧ solveFuel [⟨"ancestor", [BodyOp.scan "parent" none], "ancestor", 0, 1⟩] 1
        [("parent", 0, 1), ("ancestor", 0, 1)]
      = some [("parent", 0, 1), ("ancestor", 0, 1)] := by
  have h := claim_c3 [⟨"ancestor", [BodyOp.scan "parent" none], "ancestor", 0, 1⟩]
    3 [("parent", 0, 1)] [("parent", 0, 1), ("ancestor", 0, 1)] (by decide)
  exact ⟨h.1, h.2 1 (by decide)⟩

/- ──────────────── The wildcard sentinel: claim C4 ─────────────────────── -/

theorem parseQueryArg_sentinel {t t1 : AtomTable} {tok : Token} {v : Int}
    {sp : Option String} (h : parseQueryArg t tok = some (t1, v, sp)) :
    v = wildcard_sentinel ↔ (tok = Token.wild ∨ tok = Token.int (-1)) := by
  cases tok with
  | int n =>
    simp only [parseQueryArg, Option.some.injEq, Prod.mk.injEq] at h
    obtain ⟨rfl, rfl, rfl⟩ := h
    simp [wildcard_sentinel]
  | ident s =>
    simp only [parseQueryArg, Option.some.injEq, Prod.mk.injEq] at h
    obtain ⟨rfl, rfl, rfl⟩ := h
    constructor
    · intro hv
      exfalso
      rw [wildcard_sentinel] at hv
      omega
    · intro hv
      rcases hv with hv | hv <;> cases hv
  | wild =>
    simp only [parseQueryArg, Option.some.injEq, Prod.mk.injEq] at h
    obtain ⟨rfl, rfl, rfl⟩ := h
    simp
  | kwRel => cases h
  | kwFact => cases h
  | kwRule => cases h
  | kwScan => cases h
  | kwJoin => cases h
  | kwEmit => cases h
  | kwMatch => cases h
  | kwSolve => cases h
  | kwQuery => cases h
  | tvar w => cases h
  | colon => cases h
  | comma => cases h

/-- C4 counterexample (spec-modelled).  The wildcard sentinel is NOT
out-of-band: the integer literal `-1` in a QUERY argument parses to
exactly the representation the `?` token produces — the two programs
`QUERY r -1 0` and `QUERY r ? 0` yield identical ASTs, so an argument can
be represented as a wildcard although its source token was not `?`, and a
signed integer literal coincides with the wildcard representation. -/
theorem claim_c4_counterexample :
    parse_string [[Token.kwQuery, Token.ident "r", Token.int (-1), Token.int 0]]
      = some [Stmt.query "r" wildcard_sentinel 0 none none]
    ∧ parse_string [[Token.kwQuery, Token.ident "r", Token.wild, Token.int 0]]
      = some [Stmt.query "r" wildcard_sentinel 0 none none] :=
  ⟨by decide, by decide⟩

/-- C4 as amended (spec-modelled).  A parsed QUERY argument equals the
wildcard sentinel `-1` iff its source token was `?` or the literal `-1`:
`?` maps to the sentinel, an integer literal maps to its numeric value
(so the literal `-1` is in-band), and an interned bareword never collides
because atom ids are non-negative. -/
theorem claim_c4 :
    ∀ (t t2 : AtomTable) (rel : String) (ta tb : Token) (r : String) (a b : Int)
      (aa ab : Option String),
      parseLine t [Token.kwQuery, Token.ident rel, ta, tb]
        = some (t2, some (Stmt.query r a b aa ab)) →
      (a = wildcard_sentinel ↔ (ta = Token.wild ∨ ta = Token.int (-1)))
      ∧ (b = wildcard_sentinel ↔ (tb = Token.wild ∨ tb = Token.int (-1))) := by
  intro t t2 rel ta tb r a b aa ab h
  simp only [parseLine] at h
  cases h1 : parseQueryArg t ta with
  | none => rw [h1] at h; cases h
  | some p =>
    rcases p with ⟨t1, v1, s1⟩
    rw [h1] at h
    dsimp only at h
    cases h2 : parseQueryArg t1 tb with
    | none => rw [h2] at h; cases h
    | some q =>
      rcases q with ⟨tB, v2, s2⟩
      rw [h2] at h
      simp only [Option.some.injEq, Prod.mk.injEq, Stmt.query.injEq] at h
      obtain ⟨rfl, _, rfl, rfl, rfl, rfl⟩ := h
      exact ⟨parseQueryArg_sentinel h1, parseQueryArg_sentinel h2⟩

/-- C4 witness: in `QUERY r ? 5`, the first argument is the sentinel (its
token was `?`) and the second is not (its token was the literal `5`). -/
theorem claim_c4_witness :
    ((-1 : Int) = wildcard_sentinel ↔
      (Token.wild = Token.wild ∨ Token.wild = Token.int (-1)))
    ∧ ((5 : Int) = wildcard_sentinel ↔
      (Token.int 5 = Token.wild ∨ Token.int 5 = Token.int (-1))) :=
  claim_c4 AtomTable.empty AtomTable.empty "r" Token.wild (Token.int 5)
    "r" (-1) 5 none none (by decide)

/- ──────────────────── Missing EMIT clause: claim C9 ──────────────────── -/

theorem badRule_parseLine {l : List Token} (hbad : ruleMissingEmit l = true) :
    ∀ t : AtomTable, parseLine t l = none := by
  intro t
  rw [ruleMissingEmit.eq_def] at hbad
  split at hbad
  · rename_i tgt rest
    have hrule : parseRule tgt rest = none := by
      rw [parseRule]
      cases hg : (splitClauses rest).getLast? with
      | none => rfl
      | some c =>
        rw [hg] at hbad
        dsimp only at hbad
        have hemit : parseEmit c = none := by
          cases he : parseEmit c with
          | none => rfl
          | some p =>
            rw [he] at hbad
            cases hbad
        dsimp only
        rw [hemit]
    simp only [parseLine, hrule]
  · cases hbad

theorem parse_fails_of_badLine : ∀ (lines : List (List Token)) (t : AtomTable),
    (∃ l ∈ lines, ruleMissingEmit l = true) → parseStmts t lines = none := by
  intro lines
  induction lines with
  | nil =>
    intro t h
    rcases h with ⟨l, hl, _⟩
    cases hl
  | cons l0 ls ih =>
    intro t h
    rcases h with ⟨l, hl, hbad⟩
    rcases List.mem_cons.mp hl with rfl | hl2
    · simp only [parseStmts, badRule_parseLine hbad t]
    · cases hp : parseLine t l0 with
      | none => simp only [parseStmts, hp]
      | some p =>
        rcases p with ⟨t1, os⟩
        simp only [parseStmts, hp, ih t1 ⟨l, hl2, hbad⟩]

/-- C9 (spec-modelled).  A RULE statement whose body lacks a final EMIT
clause is rejected at program load: any program containing such a line
fails to parse (no AST is returned), and since `demo.c` returns before
creating the engine when the parse fails, execution never starts and no
fact is ever inserted (the pipeline yields no engine state at all). -/
theorem claim_c9 :
    ∀ lines : List (List Token), (∃ l ∈ lines, ruleMissingEmit l = true) →
      parse_string lines = none ∧ run_program lines = none := by
  intro lines h
  have hp : parseStmts AtomTable.empty lines = none := parse_fails_of_badLine lines _ h
  constructor
  · rw [parse_string, hp]
    rfl
  · rw [run_program, parse_string, hp]
    rfl

/-- C9 witness: the claim's example `RULE target: SCAN parent` (no EMIT)
aborts the load of the one-line program containing it. -/
theorem claim_c9_witness :
    parse_string [[Token.kwRule, Token.ident "target", Token.colon,
        Token.kwScan, Token.ident "parent"]] = none
    ∧ run_program [[Token.kwRule, Token.ident "target", Token.colon,
        Token.kwScan, Token.ident "parent"]] = none :=
  claim_c9 [[Token.kwRule, Token.ident "target", Token.colon,
    Token.kwScan, Token.ident "parent"]]
    ⟨[Token.kwRule, Token.ident "target", Token.colon,
      Token.kwScan, Token.ident "parent"], by decide, by decide⟩

/- ─────────────── Parse-time atom interning: claim C10 ────────────────── -/

theorem foldl_addName_ext (L : List String) : ∀ ns : List String,
    ∃ ext, L.foldl addName ns = ns ++ ext := by
  induction L with
  | nil => intro ns; exact ⟨[], by simp⟩
  | cons a L ih =>
    intro ns
    rcases ih (addName ns a) with ⟨e2, he2⟩
    by_cases h : a ∈ ns
    · exact ⟨e2, by rw [List.foldl_cons, he2, addName, if_pos h]⟩
    · exact ⟨[a] ++ e2, by
        rw [List.foldl_cons, he2, addName, if_neg h, List.append_assoc]⟩

theorem atomOk_ext {t t2 : AtomTable} (hext : ∃ ext, t2.names = t.names ++ ext)
    {v : Int} {sp : Option String} (h : atomOk t v sp) : atomOk t2 v sp := by
  rcases hext with ⟨ext, he⟩
  intro s hs
  rcases h s hs with ⟨hm, hv⟩
  rw [he]
  exact ⟨List.mem_append_left _ hm, by rw [nameIdx_append_of_mem hm]; exact hv⟩

theorem atomArgsOk_ext {t t2 : AtomTable} (hext : ∃ ext, t2.names = t.names ++ ext)
    {st : Stmt} (h : atomArgsOk t st) : atomArgsOk t2 st := by
  cases st with
  | fact r a b aa ab => exact ⟨atomOk_ext hext h.1, atomOk_ext hext h.2⟩
  | query r a b aa ab => exact ⟨atomOk_ext hext h.1, atomOk_ext hext h.2⟩
  | rel_decl n => trivial
  | rule ru => trivial
  | solve => trivial

theorem parseFactArg_spec {t : AtomTable} {tok : Token} {t1 : AtomTable} {v : Int}
    {sp : Option String} (h : parseFactArg t tok = some (t1, v, sp)) :
    t1.names = (argBareword tok).foldl addName t.names ∧ atomOk t1 v sp := by
  cases tok with
  | int n =>
    simp only [parseFactArg, Option.some.injEq, Prod.mk.injEq] at h
    obtain ⟨rfl, rfl, rfl⟩ := h
    refine ⟨rfl, ?_⟩
    intro s hs
    cases hs
  | ident s =>
    simp only [parseFactArg, Option.some.injEq, Prod.mk.injEq] at h
    obtain ⟨rfl, rfl, rfl⟩ := h
    constructor
    · rw [intern_names]
      rfl
    · intro u hu
      obtain rfl : s = u := Option.some.inj hu
      refine ⟨intern_mem t s, ?_⟩
      rw [intern_id_eq]
  | wild => cases h
  | kwRel => cases h
  | kwFact => cases h
  | kwRule => cases h
  | kwScan => cases h
  | kwJoin => cases h
  | kwEmit => cases h
  | kwMatch => cases h
  | kwSolve => cases h
  | kwQuery => cases h
  | tvar w => cases h
  | colon => cases h
  | comma => cases h

theorem parseQueryArg_spec {t : AtomTable} {tok : Token} {t1 : AtomTable} {v : Int}
    {sp : Option String} (h : parseQueryArg t tok = some (t1, v, sp)) :
    t1.names = (argBareword tok).foldl addName t.names ∧ atomOk t1 v sp := by
  cases tok with
  | int n =>
    simp only [parseQueryArg, Option.some.injEq, Prod.mk.injEq] at h
    obtain ⟨rfl, rfl, rfl⟩ := h
    refine ⟨rfl, ?_⟩
    intro s hs
    cases hs
  | ident s =>
    simp only [parseQueryArg, Option.some.injEq, Prod.mk.injEq] at h
    obtain ⟨rfl, rfl, rfl⟩ := h
    constructor
    · rw [intern_names]
      rfl
    · intro u hu
      obtain rfl : s = u := Option.some.inj hu
      refine ⟨intern_mem t s, ?_⟩
      rw [intern_id_eq]
  | wild =>
    simp only [parseQueryArg, Option.some.injEq, Prod.mk.injEq] at h
    obtain ⟨rfl, rfl, rfl⟩ := h
    refine ⟨rfl, ?_⟩
    intro s hs
    cases hs
  | kwRel => cases h
  | kwFact => cases h
  | kwRule => cases h
  | kwScan => cases h
  | kwJoin => cases h
  | kwEmit => cases h
  | kwMatch => cases h
  | kwSolve => cases h
  | kwQuery => cases h
  | tvar w => cases h
  | colon => cases h
  | comma => cases h

theorem parseLine_spec {t : AtomTable} {l : List Token} {t2 : AtomTable}
    {os : Option Stmt} (h : parseLine t l = some (t2, os)) :
    t2.names = (lineBarewords l).foldl addName t.names
    ∧ ∀ st, os = some st → atomArgsOk t2 st := by
  rw [parseLine.eq_def] at h
  split at h
  · -- empty line
    simp only [Option.some.injEq, Prod.mk.injEq] at h
    obtain ⟨rfl, rfl⟩ := h
    exact ⟨rfl, fun st hst => by cases hst⟩
  · -- REL
    simp only [Option.some.injEq, Prod.mk.injEq] at h
    obtain ⟨rfl, rfl⟩ := h
    exact ⟨rfl, fun st hst => by obtain rfl := Option.some.inj hst; trivial⟩
  · -- SOLVE
    simp only [Option.some.injEq, Prod.mk.injEq] at h
    obtain ⟨rfl, rfl⟩ := h
    exact ⟨rfl, fun st hst => by obtain rfl := Option.some.inj hst; trivial⟩
  · -- FACT
    rename_i r a1 a2
    cases h1 : parseFactArg t a1 with
    | none => rw [h1] at h; cases h
    | some p =>
      rcases p with ⟨t1, v1, s1⟩
      rw [h1] at h
      dsimp only at h
      cases h2 : parseFactArg t1 a2 with
      | none => rw [h2] at h; cases h
      | some q =>
        rcases q with ⟨tB, v2, s2⟩
        rw [h2] at h
        simp only [Option.some.injEq, Prod.mk.injEq] at h
        obtain ⟨rfl, rfl⟩ := h
        rcases parseFactArg_spec h1 with ⟨hn1, ha1⟩
        rcases parseFactArg_spec h2 with ⟨hn2, ha2⟩
        constructor
        · show tB.names = (argBareword a1 ++ argBareword a2).foldl addName t.names
          rw [List.foldl_append, ← hn1, ← hn2]
        · intro st hst
          obtain rfl := Option.some.inj hst
          refine ⟨?_, ha2⟩
          apply atomOk_ext ?_ ha1
          rcases foldl_addName_ext (argBareword a2) t1.names with ⟨ext, he⟩
          exact ⟨ext, by rw [hn2, he]⟩
  · -- QUERY
    rename_i r a1 a2
    cases h1 : parseQueryArg t a1 with
    | none => rw [h1] at h; cases h
    | some p =>
      rcases p with ⟨t1, v1, s1⟩
      rw [h1] at h
      dsimp only at h
      cases h2 : parseQueryArg t1 a2 with
      | none => rw [h2] at h; cases h
      | some q =>
        rcases q with ⟨tB, v2, s2⟩
        rw [h2] at h
        simp only [Option.some.injEq, Prod.mk.injEq] at h
        obtain ⟨rfl, rfl⟩ := h
        rcases parseQueryArg_spec h1 with ⟨hn1, ha1⟩
        rcases parseQueryArg_spec h2 with ⟨hn2, ha2⟩
        constructor
        · show tB.names = (argBareword a1 ++ argBareword a2).foldl addName t.names
          rw [List.foldl_append, ← hn1, ← hn2]
        · intro st hst
          obtain rfl := Option.some.inj hst
          refine ⟨?_, ha2⟩
          apply atomOk_ext ?_ ha1
          rcases foldl_addName_ext (argBareword a2) t1.names with ⟨ext, he⟩
          exact ⟨ext, by rw [hn2, he]⟩
  · -- RULE
    rename_i tgt rest
    cases hr : parseRule tgt rest with
    | none => rw [hr] at h; cases h
    | some ru =>
      rw [hr] at h
      simp only [Option.some.injEq, Prod.mk.injEq] at h
      obtain ⟨rfl, rfl⟩ := h
      exact ⟨rfl, fun st hst => by obtain rfl := Option.some.inj hst; trivial⟩
  · -- no statement form matches
    cases h

theorem parseStmts_spec : ∀ (lines : List (List Token)) (t t2 : AtomTable)
    (stmts : List Stmt), parseStmts t lines = some (t2, stmts) →
    t2.names = (allBarewords lines).foldl addName t.names
    ∧ ∀ st ∈ stmts, atomArgsOk t2 st := by
  intro lines
  induction lines with
  | nil =>
    intro t t2 stmts h
    simp only [parseStmts, Option.some.injEq, Prod.mk.injEq] at h
    obtain ⟨rfl, rfl⟩ := h
    exact ⟨rfl, fun st hst => by cases hst⟩
  | cons l ls ih =>
    intro t t2 stmts h
    simp only [parseStmts] at h
    cases h1 : parseLine t l with
    | none => rw [h1] at h; cases h
    | some p =>
      rcases p with ⟨t1, os⟩
      rw [h1] at h
      dsimp only at h
      cases h2 : parseStmts t1 ls with
      | none => rw [h2] at h; cases h
      | some q =>
        rcases q with ⟨tB, ss⟩
        rw [h2] at h
        dsimp only at h
        rcases parseLine_spec h1 with ⟨hn1, ha1⟩
        rcases ih t1 tB ss h2 with ⟨hn2, ha2⟩
        have hnames : tB.names = (allBarewords (l :: ls)).foldl addName t.names := by
          simp only [hn2, hn1, allBarewords, List.flatMap_cons, List.foldl_append]
        have hext : ∃ ext, tB.names = t1.names ++ ext := by
          rcases foldl_addName_ext (allBarewords ls) t1.names with ⟨ext, he⟩
          exact ⟨ext, by rw [hn2, he]⟩
        cases os with
        | none =>
          simp only [Option.some.injEq, Prod.mk.injEq] at h
          obtain ⟨rfl, rfl⟩ := h
          exact ⟨hnames, ha2⟩
        | some st =>
          simp only [Option.some.injEq, Prod.mk.injEq] at h
          obtain ⟨rfl, rfl⟩ := h
          refine ⟨hnames, ?_⟩
          intro st2 hst2
          rcases List.mem_cons.mp hst2 with rfl | hmem
          · exact atomArgsOk_ext hext (ha1 st2 rfl)
          · exact ha2 st2 hmem

/-- C10 (spec-modelled).  Atom arguments are interned at parse time, not
at execution: (i) for every successfully parsed program, the atom table
the parse threads ends up holding exactly the program's distinct bareword
FACT/QUERY arguments in order of first occurrence across the whole
program (ids 0, 1, 2, …), and every statement argument that records a
spelling records precisely the id that table assigns the spelling;
(ii) an integer-literal argument is recorded as its numeric value with no
atom spelling, and (iii) a bareword argument is recorded as its interned
id together with its original spelling; (iv) consequently a bareword's id
can equal an integer literal's value elsewhere in the program, as in
`FACT test alice 42` / `FACT t2 0 7` where `alice` receives id 0, the
value also denoted by the literal `0`. -/
theorem claim_c10 :
    (∀ (lines : List (List Token)) (t2 : AtomTable) (stmts : List Stmt),
      parseStmts AtomTable.empty lines = some (t2, stmts) →
      t2.names = firstOccs (allBarewords lines) ∧ ∀ st ∈ stmts, atomArgsOk t2 st)
    ∧ (∀ (t : AtomTable) (rel : String) (n m : Int),
        parseLine t [Token.kwFact, Token.ident rel, Token.int n, Token.int m]
          = some (t, some (Stmt.fact rel n m none none)))
    ∧ (∀ (t : AtomTable) (rel s : String) (m : Int),
        parseLine t [Token.kwFact, Token.ident rel, Token.ident s, Token.int m]
          = some ((atom_table_intern t s).1,
              some (Stmt.fact rel ((atom_table_intern t s).2 : Int) m (some s) none)))
    ∧ parse_string [[Token.kwFact, Token.ident "test", Token.ident "alice", Token.int 42],
        [Token.kwFact, Token.ident "t2", Token.int 0, Token.int 7]]
      = some [Stmt.fact "test" 0 42 (some "alice") none,
              Stmt.fact "t2" 0 7 none none] := by
  refine ⟨?_, ?_, ?_, by decide⟩
  · intro lines t2 stmts h
    exact parseStmts_spec lines AtomTable.empty t2 stmts h
  · intro t rel n m
    rfl
  · intro t rel s m
    rfl

/-- C10 witness: parsing `FACT likes alice pizza` from a fresh table
yields the table `[alice, pizza]` (first-occurrence order) and a fact
statement whose arguments carry exactly the ids that table assigns. -/
theorem claim_c10_witness :
    (⟨["alice", "pizza"]⟩ : AtomTable).names
        = firstOccs (allBarewords [[Token.kwFact, Token.ident "likes",
            Token.ident "alice", Token.ident "pizza"]])
    ∧ atomArgsOk (⟨["alice", "pizza"]⟩ : AtomTable)
        (Stmt.fact "likes" 0 1 (some "alice") (some "pizza")) := by
  have h := claim_c10.1 [[Token.kwFact, Token.ident "likes", Token.ident "alice",
      Token.ident "pizza"]] ⟨["alice", "pizza"]⟩
      [Stmt.fact "likes" 0 1 (some "alice") (some "pizza")] (by decide)
  exact ⟨h.1, h.2 (Stmt.fact "likes" 0 1 (some "alice") (some "pizza")) (by decide)⟩

end ByteLog
